import Mathlib

/-!
Verification of the concurrency core of the `http-handler` Go package
(`handler.go`, `options.go`): the admission semaphore, handler
construction with options, the fan-out/fan-in fetch engine, and the
`ServeHTTP` control flow.  Go source constructs are shallowly embedded:
the buffered channel backing the semaphore becomes an in-use counter
bounded by its capacity, goroutine interleavings become a small-step
transition relation, and `ServeHTTP`'s straight-line control flow
becomes a pure function returning the observable outcome.
-/

namespace HttpHandler

/- ================= Admission semaphore ================= -/

/-- State of `semaphore.ch`, a buffered channel of capacity `cap`:
the number of empty structs currently buffered (the in-use count). -/
abbrev SemCount := Nat

/-- `(*semaphore).acquire`: the `select` with a `default` arm attempts a
non-blocking send on the buffered channel; it succeeds (returns `true`,
buffering one more element) exactly when the buffer is not full, and
otherwise takes the `default` arm and returns `false` at once. -/
def acquire (cap count : Nat) : Bool × Nat :=
  if count < cap then (true, count + 1) else (false, count)

/-- `(*semaphore).release`: `<-s.ch` receives one buffered element,
decrementing the count; a receive on an empty buffer blocks forever
(no sender exists once no slot is held), modelled as `none`. -/
def release (count : Nat) : Option Nat :=
  match count with
  | 0 => none
  | n + 1 => some n

/-- `newSemaphore` calls `make(chan struct{}, cap)`; the Go runtime
panics at construction when the requested buffer size is negative, so a
negative capacity yields no semaphore. -/
def newSemaphore (cap : Int) : Option Nat :=
  if cap < 0 then none else some cap.toNat

/-- One call against the semaphore: an acquire attempt or a release. -/
inductive SemOp
  | acq
  | rel
deriving DecidableEq, Repr

/-- Run a sequence of semaphore calls from a given in-use count,
returning the final count, or `none` if some release blocked. -/
def runOps (cap : Nat) : List SemOp → Nat → Option Nat
  | [], c => some c
  | SemOp.acq :: ops, c => runOps cap ops (acquire cap c).2
  | SemOp.rel :: ops, c =>
    match release c with
    | none => none
    | some c' => runOps cap ops c'

/-- Default capacity `defaultMaxIncomingRequests` from `handler.go`. -/
def defaultMaxIncomingRequests : Nat := 100

/-- Stand-in identity for `http.DefaultClient` (`defaultClient`). -/
def defaultClient : Nat := 0

/-- Stand-in identity for `log.Default()` (`defaultLogger`). -/
def defaultLogger : Nat := 1

/-- The three `Option` implementations: `WithClient`, `WithLogger` and
`LimitRequests`.  Go's `*http.Client` / `*log.Logger` pointers may be
nil, so the payloads of the first two are `Option Nat`. -/
inductive HandlerOpt
  | withClient (client : Option Nat)
  | withLogger (logger : Option Nat)
  | limitRequests (limit : Int)
deriving DecidableEq, Repr

/-- The `Handler` struct.  `semCap` is the capacity of the buffered
channel inside `h.sem`; `maxRequests` is the field written by
`limitRequestsOption.apply` (declared as the target of `LimitRequests`;
`NewHandler` in `handler.go` never reads it); `client` and `logger` are
the injected capabilities, `none` standing for a nil pointer. -/
structure Handler where
  semCap : Nat
  maxRequests : Int
  client : Option Nat
  logger : Option Nat
deriving DecidableEq, Repr

/-- The three `apply` methods from `options.go`: each writes its field. -/
def applyOpt (h : Handler) : HandlerOpt → Handler
  | HandlerOpt.withClient c => { h with client := c }
  | HandlerOpt.withLogger l => { h with logger := l }
  | HandlerOpt.limitRequests n => { h with maxRequests := n }

/-- `NewHandler` from `handler.go`: builds the struct with
`sem: newSemaphore(defaultMaxIncomingRequests)` (zero values elsewhere),
then applies the options in argument order, then substitutes the default
client and logger for fields still nil. -/
def NewHandler (opts : List HandlerOpt) : Handler :=
  let h : Handler :=
    { semCap := defaultMaxIncomingRequests, maxRequests := 0,
      client := none, logger := none }
  let h := opts.foldl applyOpt h
  let h := if h.client = none then { h with client := some defaultClient } else h
  if h.logger = none then { h with logger := some defaultLogger } else h

/-- Accumulator step recording the payload of the latest `WithClient`. -/
def clientStep (acc : Option (Option Nat)) (o : HandlerOpt) : Option (Option Nat) :=
  match o with
  | HandlerOpt.withClient c => some c
  | _ => acc

/-- Accumulator step recording the payload of the latest `WithLogger`. -/
def loggerStep (acc : Option (Option Nat)) (o : HandlerOpt) : Option (Option Nat) :=
  match o with
  | HandlerOpt.withLogger l => some l
  | _ => acc

/-- Payload of the last `WithClient` among the options, if any. -/
def lastClient (opts : List HandlerOpt) : Option (Option Nat) :=
  opts.foldl clientStep none

/-- Payload of the last `WithLogger` among the options, if any. -/
def lastLogger (opts : List HandlerOpt) : Option (Option Nat) :=
  opts.foldl loggerStep none
/- ================= Payload splitting ================= -/

/-- A URL, as Go's `string`: a list of characters. -/
abbrev Url := List Char

/-- `strings.Split(string(data), "\n")` with a one-character separator:
the list of segments between newlines.  Always returns at least one
segment; an empty input yields one empty segment. -/
def splitLines : List Char → List Url
  | [] => [[]]
  | c :: rest =>
    if c = '\n' then [] :: splitLines rest
    else
      match splitLines rest with
      | [] => [[c]]
      | l :: ls => (c :: l) :: ls

/- ================= Fetch engine (fan-out / fan-in) ================= -/

/-- Where a fetch goroutine stands: `fetching` before the call to
`h.client.Get` / `ioutil.ReadAll` returns, `sending n` when it holds a
body of length `n` and is blocked at `ch <- len(content)`. -/
inductive Phase
  | fetching
  | sending (n : Nat)
deriving DecidableEq, Repr

/-- One goroutine spawned by `fetch`, identified by its URL and phase. -/
abbrev FetchTask := Url × Phase

/-- Interleaving state of one `fetch` invocation: the live goroutines,
the values already received by the reader (in arrival order), the error
lines written to the logger, and whether `close(ch)` has run. -/
structure Config where
  running : List FetchTask
  emitted : List Nat
  logged : List Url
  closed : Bool
deriving DecidableEq, Repr

/-- The combined fetch capability `h.client.Get` + `ioutil.ReadAll`:
either the body length or an error message. -/
abbrev GetFn := Url → Except Url Nat

/-- Success payload of one fetch call, if any. -/
def exOk : Except Url Nat → Option Nat
  | Except.ok n => some n
  | Except.error _ => none

/-- Error payload of one fetch call, if any. -/
def exErr : Except Url Nat → Option Url
  | Except.ok _ => none
  | Except.error e => some e

/-- Body lengths of the URLs whose fetch succeeds, in input order. -/
def successValues (get : GetFn) (urls : List Url) : List Nat :=
  urls.filterMap fun u => exOk (get u)

/-- Error messages of the URLs whose fetch fails, in input order. -/
def failureValues (get : GetFn) (urls : List Url) : List Url :=
  urls.filterMap fun u => exErr (get u)

/-- The value a live task will still contribute to the output channel. -/
def succOf (get : GetFn) (t : FetchTask) : Option Nat :=
  match t.2 with
  | Phase.fetching => exOk (get t.1)
  | Phase.sending n => some n

/-- The error message a live task will still write to the logger. -/
def failOf (get : GetFn) (t : FetchTask) : Option Url :=
  match t.2 with
  | Phase.fetching => exErr (get t.1)
  | Phase.sending _ => none

/-- Start of `fetch urls`: the loop body `wg.Add(1); go func(url){...}`
has spawned one goroutine per input URL (duplicates and empty strings
included), nothing emitted or logged, channel open. -/
def initConfig (urls : List Url) : Config :=
  ⟨urls.map fun u => (u, Phase.fetching), [], [], false⟩

/-- One scheduler step of the `fetch` goroutines.  `reader` records
whether the caller is still draining `ch` (in `ServeHTTP` it always is):
an unbuffered send can only complete with a reader at the other end.
A task whose fetch errs logs and calls `wg.Done` (via `defer`); a task
whose fetch succeeds moves to the send; a send hands its value to the
reader and calls `wg.Done`; once every task is done (`wg.Wait` returns),
`close(ch)` runs. -/
inductive Step (get : GetFn) (reader : Bool) (c : Config) : Config → Prop
  | fail (l₁ l₂ : List FetchTask) (u e : Url) :
      c.running = l₁ ++ (u, Phase.fetching) :: l₂ →
      get u = Except.error e →
      Step get reader c ⟨l₁ ++ l₂, c.emitted, c.logged ++ [e], c.closed⟩
  | succeed (l₁ l₂ : List FetchTask) (u : Url) (n : Nat) :
      c.running = l₁ ++ (u, Phase.fetching) :: l₂ →
      get u = Except.ok n →
      Step get reader c ⟨l₁ ++ (u, Phase.sending n) :: l₂, c.emitted, c.logged, c.closed⟩
  | emit (l₁ l₂ : List FetchTask) (u : Url) (n : Nat) :
      reader = true →
      c.running = l₁ ++ (u, Phase.sending n) :: l₂ →
      Step get reader c ⟨l₁ ++ l₂, c.emitted ++ [n], c.logged, c.closed⟩
  | close :
      c.running = [] →
      c.closed = false →
      Step get reader c ⟨[], c.emitted, c.logged, true⟩

/-- Interleavings reachable from a configuration. -/
abbrev Reachable (get : GetFn) (reader : Bool) : Config → Config → Prop :=
  Relation.ReflTransGen (Step get reader)

/-- Multiset invariant tying a configuration back to the input batch:
what was emitted plus what live tasks will still emit is the batch's
successes, likewise for logging, and the channel closes only with no
task live. -/
def EngineInv (get : GetFn) (urls : List Url) (c : Config) : Prop :=
  (c.emitted ++ c.running.filterMap (succOf get)).Perm (successValues get urls) ∧
  (c.logged ++ c.running.filterMap (failOf get)).Perm (failureValues get urls) ∧
  (c.closed = true → c.running = [])

/-- Remaining scheduler steps for one task. -/
def taskWeight (t : FetchTask) : Nat :=
  match t.2 with
  | Phase.fetching => 2
  | Phase.sending _ => 1

/-- Remaining scheduler work: two steps per task still fetching, one per
task at its send, one for the close. -/
def configMeasure (c : Config) : Nat :=
  (c.running.map taskWeight).sum + (if c.closed then 0 else 1)

/- ================= ServeHTTP ================= -/

/-- Observable outcome of one `ServeHTTP` call: the HTTP status, the
size lines written to the response, how many times the semaphore was
acquired and released, and the URL list handed to `fetch` (if any). -/
structure HttpResult where
  status : Nat
  lines : List Nat
  acquires : Nat
  releases : Nat
  engineUrls : Option (List Url)
deriving DecidableEq, Repr

/-- `(*Handler).ServeHTTP` over a gate with capacity `cap` and in-use
count `inUse`: non-POST requests get 405; then the semaphore is tried,
a full gate giving 503; then the body is read (`ioutil.ReadAll`), a
read error giving 400; otherwise the payload is split on newlines and
`fetch` is invoked, its drained output becoming the 200 response body.
The deferred `release` runs on every path after a successful acquire.
`drain` abstracts the values received from one engine run's channel. -/
def serveHTTP (drain : List Url → List Nat) (cap inUse : Nat) (method : String)
    (body : Except Unit (List Char)) : HttpResult × Nat :=
  if method ≠ "POST" then
    (⟨405, [], 0, 0, none⟩, inUse)
  else
    match acquire cap inUse with
    | (false, n) => (⟨503, [], 0, 0, none⟩, n)
    | (true, n) =>
      match body with
      | Except.error _ => (⟨400, [], 1, 1, none⟩, n - 1)
      | Except.ok data =>
        let urls := splitLines data
        (⟨200, drain urls, 1, 1, some urls⟩, n - 1)

/-- Fetch capability succeeding on every URL with a body of length 5. -/
def getAllOk : GetFn := fun _ => Except.ok 5

/-- Fetch capability failing on every URL with message `['E']`. -/
def getAllErr : GetFn := fun _ => Except.error ['E']

/-- Drain function of an engine run that produced no values. -/
def drainNil : List Url → List Nat := fun _ => []

/- ================= Theorems ================= -/

theorem acquire_snd_le (cap c : Nat) (h : c ≤ cap) : (acquire cap c).2 ≤ cap := by
  unfold acquire
  by_cases hlt : c < cap
  · simp [hlt]
    omega
  · simp [hlt]
    exact h

theorem runOps_le (cap : Nat) (ops : List SemOp) :
    ∀ c₀ c : Nat, c₀ ≤ cap → runOps cap ops c₀ = some c → c ≤ cap := by
  induction ops with
  | nil =>
    intro c₀ c h hrun
    simp [runOps] at hrun
    omega
  | cons op ops ih =>
    intro c₀ c h hrun
    cases op with
    | acq =>
      simp only [runOps] at hrun
      exact ih _ _ (acquire_snd_le cap c₀ h) hrun
    | rel =>
      simp only [runOps] at hrun
      cases hc : release c₀ with
      | none => rw [hc] at hrun; simp at hrun
      | some c' =>
        rw [hc] at hrun
        have hc' : c' ≤ cap := by
          unfold release at hc
          cases c₀ with
          | zero => simp at hc
          | succ n =>
            simp at hc
            omega
        exact ih _ _ hc' hrun

/-- C2: with in-use below capacity, `acquire` succeeds and increments the
count; at capacity it fails immediately leaving the count unchanged; any
sequence of calls starting from an idle gate keeps the in-use count at or
below capacity; and from a saturated gate of positive capacity, one
`release` lets exactly one subsequent `acquire` succeed, the next one
failing again. -/
theorem semaphore_capacity_invariant (cap count : Nat) :
    (count < cap → acquire cap count = (true, count + 1)) ∧
    (acquire cap cap = (false, cap)) ∧
    (∀ ops c, runOps cap ops 0 = some c → c ≤ cap) ∧
    (1 ≤ cap →
      release cap = some (cap - 1) ∧
      acquire cap (cap - 1) = (true, cap) ∧
      acquire cap cap = (false, cap)) := by
  refine ⟨?_, ?_, ?_, ?_⟩
  · intro h
    simp [acquire, h]
  · simp [acquire]
  · intro ops c hrun
    exact runOps_le cap ops 0 c (Nat.zero_le cap) hrun
  · intro hcap
    refine ⟨?_, ?_, ?_⟩
    · unfold release
      cases cap with
      | zero => omega
      | succ n => simp
    · have h : cap - 1 < cap := by omega
      simp [acquire, h]
      omega
    · simp [acquire]

theorem semaphore_capacity_invariant_witness :
    (2 < 3 → acquire 3 2 = (true, 3)) ∧
    (acquire 3 3 = (false, 3)) ∧
    (∀ ops c, runOps 3 ops 0 = some c → c ≤ 3) ∧
    (1 ≤ 3 →
      release 3 = some 2 ∧ acquire 3 2 = (true, 3) ∧ acquire 3 3 = (false, 3)) :=
  semaphore_capacity_invariant 3 2

/-- C7: a gate of capacity 0 refuses every `acquire` (returning `false`
with the count unchanged, never panicking or blocking since `acquire` is a
total non-blocking function), and constructing a semaphore with negative
capacity fails at construction time. -/
theorem zero_capacity_gate :
    (∀ count, acquire 0 count = (false, count)) ∧
    (∀ z : Int, z < 0 → newSemaphore z = none) := by
  constructor
  · intro count
    simp [acquire]
  · intro z hz
    simp [newSemaphore, hz]

theorem zero_capacity_gate_witness :
    acquire 0 5 = (false, 5) ∧ newSemaphore (-1) = none :=
  ⟨zero_capacity_gate.1 5, zero_capacity_gate.2 (-1) (by decide)⟩

/-- C4: evaluating `NewHandler(LimitRequests(5))`: the option writes 5
into `maxRequests`, but the admission semaphore was already constructed
with the default capacity 100 before the options ran and `maxRequests` is
never read, so the gate's effective capacity stays 100, not 5. -/
theorem limitRequests_capacity_ignored :
    (NewHandler [HandlerOpt.limitRequests 5]).maxRequests = 5 ∧
    (NewHandler [HandlerOpt.limitRequests 5]).semCap = 100 ∧
    defaultMaxIncomingRequests = 100 := by
  exact ⟨rfl, rfl, rfl⟩

theorem foldl_clientStep_init (opts : List HandlerOpt) :
    ∀ init : Option (Option Nat),
      opts.foldl clientStep init =
        match opts.foldl clientStep none with
        | some x => some x
        | none => init := by
  induction opts with
  | nil => intro init; simp
  | cons o opts ih =>
    intro init
    cases o with
    | withClient c =>
      simp only [List.foldl_cons, clientStep]
      rw [ih (some c)]
      cases opts.foldl clientStep none <;> simp
    | withLogger l =>
      simp only [List.foldl_cons, clientStep]
      exact ih init
    | limitRequests n =>
      simp only [List.foldl_cons, clientStep]
      exact ih init

theorem foldl_loggerStep_init (opts : List HandlerOpt) :
    ∀ init : Option (Option Nat),
      opts.foldl loggerStep init =
        match opts.foldl loggerStep none with
        | some x => some x
        | none => init := by
  induction opts with
  | nil => intro init; simp
  | cons o opts ih =>
    intro init
    cases o with
    | withLogger l =>
      simp only [List.foldl_cons, loggerStep]
      rw [ih (some l)]
      cases opts.foldl loggerStep none <;> simp
    | withClient c =>
      simp only [List.foldl_cons, loggerStep]
      exact ih init
    | limitRequests n =>
      simp only [List.foldl_cons, loggerStep]
      exact ih init

theorem foldl_applyOpt_client (opts : List HandlerOpt) :
    ∀ h : Handler,
      (opts.foldl applyOpt h).client =
        match lastClient opts with
        | some c => c
        | none => h.client := by
  induction opts with
  | nil => intro h; simp [lastClient]
  | cons o opts ih =>
    intro h
    simp only [List.foldl_cons]
    rw [ih]
    show _ = match (o :: opts).foldl clientStep none with | some c => c | none => h.client
    simp only [List.foldl_cons]
    rw [foldl_clientStep_init opts (clientStep none o)]
    cases o with
    | withClient c =>
      cases hfold : opts.foldl clientStep none <;>
        simp [lastClient, hfold, applyOpt, clientStep]
    | withLogger l =>
      cases hfold : opts.foldl clientStep none <;>
        simp [lastClient, hfold, applyOpt, clientStep]
    | limitRequests n =>
      cases hfold : opts.foldl clientStep none <;>
        simp [lastClient, hfold, applyOpt, clientStep]

theorem foldl_applyOpt_logger (opts : List HandlerOpt) :
    ∀ h : Handler,
      (opts.foldl applyOpt h).logger =
        match lastLogger opts with
        | some l => l
        | none => h.logger := by
  induction opts with
  | nil => intro h; simp [lastLogger]
  | cons o opts ih =>
    intro h
    simp only [List.foldl_cons]
    rw [ih]
    show _ = match (o :: opts).foldl loggerStep none with | some l => l | none => h.logger
    simp only [List.foldl_cons]
    rw [foldl_loggerStep_init opts (loggerStep none o)]
    cases o with
    | withClient c =>
      cases hfold : opts.foldl loggerStep none <;>
        simp [lastLogger, hfold, applyOpt, loggerStep]
    | withLogger l =>
      cases hfold : opts.foldl loggerStep none <;>
        simp [lastLogger, hfold, applyOpt, loggerStep]
    | limitRequests n =>
      cases hfold : opts.foldl loggerStep none <;>
        simp [lastLogger, hfold, applyOpt, loggerStep]

/-- C10: `NewHandler` folds the options in argument order, so the last
option writing a field wins; the default client and logger are then
substituted exactly for the fields still nil after all options ran, so a
`WithClient(nil)` or `WithLogger(nil)` option yields the corresponding
default. -/
theorem newHandler_option_order (opts : List HandlerOpt) :
    ((NewHandler opts).client =
      match lastClient opts with
      | some (some c) => some c
      | some none => some defaultClient
      | none => some defaultClient) ∧
    ((NewHandler opts).logger =
      match lastLogger opts with
      | some (some l) => some l
      | some none => some defaultLogger
      | none => some defaultLogger) := by
  have hc := foldl_applyOpt_client opts
    { semCap := defaultMaxIncomingRequests, maxRequests := 0,
      client := none, logger := none }
  have hl := foldl_applyOpt_logger opts
    { semCap := defaultMaxIncomingRequests, maxRequests := 0,
      client := none, logger := none }
  unfold NewHandler
  constructor
  · cases hcl : lastClient opts with
    | none =>
      rw [hcl] at hc
      by_cases hlog :
          (opts.foldl applyOpt
            { semCap := defaultMaxIncomingRequests, maxRequests := 0,
              client := none, logger := none }).logger = none <;>
        simp [hc, hlog]
    | some c =>
      rw [hcl] at hc
      cases c with
      | none =>
        by_cases hlog :
            (opts.foldl applyOpt
              { semCap := defaultMaxIncomingRequests, maxRequests := 0,
                client := none, logger := none }).logger = none <;>
          simp [hc, hlog]
      | some x =>
        by_cases hlog :
            (opts.foldl applyOpt
              { semCap := defaultMaxIncomingRequests, maxRequests := 0,
                client := none, logger := none }).logger = none <;>
          simp [hc, hlog]
  · cases hll : lastLogger opts with
    | none =>
      rw [hll] at hl
      by_cases hcli :
          (opts.foldl applyOpt
            { semCap := defaultMaxIncomingRequests, maxRequests := 0,
              client := none, logger := none }).client = none <;>
        simp [hl, hcli]
    | some l =>
      rw [hll] at hl
      cases l with
      | none =>
        by_cases hcli :
            (opts.foldl applyOpt
              { semCap := defaultMaxIncomingRequests, maxRequests := 0,
                client := none, logger := none }).client = none <;>
          simp [hl, hcli]
      | some x =>
        by_cases hcli :
            (opts.foldl applyOpt
              { semCap := defaultMaxIncomingRequests, maxRequests := 0,
                client := none, logger := none }).client = none <;>
          simp [hl, hcli]

theorem splitLines_ne_nil (s : List Char) : splitLines s ≠ [] := by
  induction s with
  | nil => simp [splitLines]
  | cons c rest ih =>
    simp only [splitLines]
    by_cases hc : c = '\n'
    · simp [hc]
    · rw [if_neg hc]
      cases hs : splitLines rest <;> simp

theorem splitLines_append_newline (s : List Char) :
    splitLines (s ++ ['\n']) = splitLines s ++ [[]] := by
  induction s with
  | nil => rfl
  | cons c rest ih =>
    by_cases hc : c = '\n'
    · simp only [List.cons_append, splitLines, if_pos hc, List.cons.injEq, true_and]
      exact ih
    · simp only [List.cons_append, splitLines, if_neg hc, List.append_eq]
      rw [ih]
      cases hs : splitLines rest with
      | nil => exact absurd hs (splitLines_ne_nil rest)
      | cons l ls => simp [hs]

theorem perm_snoc_middle {α : Type} (a : List α) (x : α) (l₁ l₂ : List α) :
    ((a ++ [x]) ++ (l₁ ++ l₂)).Perm (a ++ (l₁ ++ x :: l₂)) := by
  have h : ([x] ++ (l₁ ++ l₂)).Perm (l₁ ++ x :: l₂) := by
    simpa using (List.perm_middle).symm
  have e : (a ++ [x]) ++ (l₁ ++ l₂) = a ++ ([x] ++ (l₁ ++ l₂)) := by simp
  rw [e]
  exact h.append_left a

theorem engineInv_init (get : GetFn) (urls : List Url) :
    EngineInv get urls (initConfig urls) := by
  refine ⟨?_, ?_, ?_⟩
  · simp only [initConfig, List.nil_append, List.filterMap_map]
    exact List.Perm.refl _
  · simp only [initConfig, List.nil_append, List.filterMap_map]
    exact List.Perm.refl _
  · intro h
    simp [initConfig] at h

theorem engineInv_step (get : GetFn) (reader : Bool) (urls : List Url)
    (c c' : Config) (hstep : Step get reader c c') (hinv : EngineInv get urls c) :
    EngineInv get urls c' := by
  obtain ⟨hS, hF, hC⟩ := hinv
  cases hstep with
  | fail l₁ l₂ u e hrun hget =>
    rw [hrun] at hS hF
    refine ⟨?_, ?_, ?_⟩
    · simpa [List.filterMap_append, List.filterMap_cons, succOf, hget, exOk] using hS
    · have hF' :
          (c.logged ++
            (List.filterMap (failOf get) l₁ ++ e :: List.filterMap (failOf get) l₂)).Perm
            (failureValues get urls) := by
        simpa [List.filterMap_append, List.filterMap_cons, failOf, hget, exErr] using hF
      have hp := perm_snoc_middle c.logged e
        (List.filterMap (failOf get) l₁) (List.filterMap (failOf get) l₂)
      simp only [List.filterMap_append]
      exact hp.trans hF'
    · intro hcl
      have hnil := hC hcl
      rw [hrun] at hnil
      simp at hnil
  | succeed l₁ l₂ u n hrun hget =>
    rw [hrun] at hS hF
    refine ⟨?_, ?_, ?_⟩
    · simpa [List.filterMap_append, List.filterMap_cons, succOf, hget, exOk] using hS
    · simpa [List.filterMap_append, List.filterMap_cons, failOf, hget, exErr] using hF
    · intro hcl
      have hnil := hC hcl
      rw [hrun] at hnil
      simp at hnil
  | emit l₁ l₂ u n hr hrun =>
    rw [hrun] at hS hF
    refine ⟨?_, ?_, ?_⟩
    · have hS' :
          (c.emitted ++
            (List.filterMap (succOf get) l₁ ++ n :: List.filterMap (succOf get) l₂)).Perm
            (successValues get urls) := by
        simpa [List.filterMap_append, List.filterMap_cons, succOf] using hS
      have hp := perm_snoc_middle c.emitted n
        (List.filterMap (succOf get) l₁) (List.filterMap (succOf get) l₂)
      simp only [List.filterMap_append]
      exact hp.trans hS'
    · simpa [List.filterMap_append, List.filterMap_cons, failOf] using hF
    · intro hcl
      have hnil := hC hcl
      rw [hrun] at hnil
      simp at hnil
  | close hrun hcl =>
    refine ⟨?_, ?_, ?_⟩
    · rw [hrun] at hS
      simpa using hS
    · rw [hrun] at hF
      simpa using hF
    · intro _
      rfl

theorem engineInv_reachable (get : GetFn) (reader : Bool) (urls : List Url)
    (c c' : Config) (h : Reachable get reader c c') (hinv : EngineInv get urls c) :
    EngineInv get urls c' := by
  induction h with
  | refl => exact hinv
  | tail hab hbc ih => exact engineInv_step get reader urls _ _ hbc ih

theorem step_measure (get : GetFn) (reader : Bool) (c c' : Config)
    (h : Step get reader c c') : configMeasure c' < configMeasure c := by
  cases h with
  | fail l₁ l₂ u e hrun hget =>
    simp only [configMeasure, hrun, List.map_append, List.sum_append, List.map_cons,
      List.sum_cons, taskWeight]
    cases c.closed <;> simp
  | succeed l₁ l₂ u n hrun hget =>
    simp only [configMeasure, hrun, List.map_append, List.sum_append, List.map_cons,
      List.sum_cons, taskWeight]
    cases c.closed <;> simp
  | emit l₁ l₂ u n hr hrun =>
    simp only [configMeasure, hrun, List.map_append, List.sum_append, List.map_cons,
      List.sum_cons, taskWeight]
    cases c.closed <;> simp
  | close hrun hcl =>
    simp [configMeasure, hrun, hcl]

theorem engine_progress (get : GetFn) (c : Config) (hcl : c.closed = false) :
    ∃ c', Step get true c c' := by
  cases hrun : c.running with
  | nil => exact ⟨_, Step.close hrun hcl⟩
  | cons t ts =>
    obtain ⟨u, ph⟩ := t
    cases ph with
    | fetching =>
      cases hget : get u with
      | error e => exact ⟨_, Step.fail [] ts u e (by simpa using hrun) hget⟩
      | ok n => exact ⟨_, Step.succeed [] ts u n (by simpa using hrun) hget⟩
    | sending n => exact ⟨_, Step.emit [] ts u n rfl (by simpa using hrun)⟩

theorem success_failure_length (get : GetFn) (urls : List Url) :
    (successValues get urls).length + (failureValues get urls).length = urls.length := by
  induction urls with
  | nil => simp [successValues, failureValues]
  | cons u us ih =>
    simp only [successValues, failureValues] at ih ⊢
    cases hget : get u with
    | ok n =>
      have h1 : exOk (get u) = some n := by rw [hget]; rfl
      have h2 : exErr (get u) = none := by rw [hget]; rfl
      simp only [List.filterMap_cons, h1, h2, List.length_cons]
      omega
    | error e =>
      have h1 : exOk (get u) = none := by rw [hget]; rfl
      have h2 : exErr (get u) = some e := by rw [hget]; rfl
      simp only [List.filterMap_cons, h1, h2, List.length_cons]
      omega

/-- C1: `fetch` launches one goroutine per input URL (duplicates and
empty strings included); with the caller draining the channel, every
interleaving that has closed the channel has all tasks terminated and
has emitted exactly the successful fetches' lengths, one value each;
every still-open interleaving can take a further step and every step
decreases the remaining-work measure, so every maximal interleaving
ends with the channel closed; an empty batch closes at once with zero
emitted values. -/
theorem fetch_fanout_complete (get : GetFn) (urls : List Url) :
    (initConfig urls).running = (urls.map fun u => (u, Phase.fetching)) ∧
    (∀ c, Reachable get true (initConfig urls) c → c.closed = true →
      c.running = [] ∧ c.emitted.Perm (successValues get urls)) ∧
    (∀ c, Reachable get true (initConfig urls) c → c.closed = false →
      ∃ c', Step get true c c') ∧
    (∀ c c', Step get true c c' → configMeasure c' < configMeasure c) ∧
    Step get true (initConfig []) ⟨[], [], [], true⟩ := by
  refine ⟨rfl, ?_, ?_, ?_, ?_⟩
  · intro c hreach hcl
    have hinv := engineInv_reachable get true urls _ _ hreach (engineInv_init get urls)
    obtain ⟨hS, _, hC⟩ := hinv
    have hrun := hC hcl
    refine ⟨hrun, ?_⟩
    rw [hrun] at hS
    simpa using hS
  · intro c _ hcl
    exact engine_progress get c hcl
  · intro c c' h
    exact step_measure get true c c' h
  · exact Step.close rfl rfl

theorem fetch_fanout_complete_witness :
    Reachable getAllOk true (initConfig [['a']]) ⟨[], [5], [], true⟩ ∧
    ([5] : List Nat).Perm (successValues getAllOk [['a']]) := by
  have hreach : Reachable getAllOk true (initConfig [['a']]) ⟨[], [5], [], true⟩ :=
    Relation.ReflTransGen.head (Step.succeed [] [] ['a'] 5 rfl rfl)
      (Relation.ReflTransGen.head (Step.emit [] [] ['a'] 5 rfl rfl)
        (Relation.ReflTransGen.single (Step.close rfl rfl)))
  have h := (fetch_fanout_complete getAllOk [['a']]).2.1 ⟨[], [5], [], true⟩ hreach rfl
  exact ⟨hreach, h.2⟩

/-- C5: in every complete drained run of an admitted batch, the logger
lines are exactly the failing fetches' errors (each failing task logs
and emits nothing), the emitted size lines number N − M, the handler
answers 200 for any admitted readable batch whatever the fetch outcomes,
and every non-200 outcome of `ServeHTTP` is method-not-allowed,
admission rejection or payload-read failure — never a fetch failure —
with the engine untouched. -/
theorem per_url_failures_absorbed (get : GetFn) (urls : List Url) :
    (∀ c, Reachable get true (initConfig urls) c → c.closed = true →
      c.logged.Perm (failureValues get urls) ∧
      c.emitted.length = urls.length - (failureValues get urls).length) ∧
    (∀ (drain : List Url → List Nat) (cap inUse : Nat) (data : List Char),
      inUse < cap →
      (serveHTTP drain cap inUse "POST" (Except.ok data)).1.status = 200 ∧
      (serveHTTP drain cap inUse "POST" (Except.ok data)).1.lines =
        drain (splitLines data)) ∧
    (∀ (drain : List Url → List Nat) (cap inUse : Nat) (method : String)
        (body : Except Unit (List Char)),
      (serveHTTP drain cap inUse method body).1.status ≠ 200 →
      (serveHTTP drain cap inUse method body).1.engineUrls = none ∧
      ((serveHTTP drain cap inUse method body).1.status = 405 ∨
        (serveHTTP drain cap inUse method body).1.status = 503 ∨
        (serveHTTP drain cap inUse method body).1.status = 400)) := by
  refine ⟨?_, ?_, ?_⟩
  · intro c hreach hcl
    have hinv := engineInv_reachable get true urls _ _ hreach (engineInv_init get urls)
    obtain ⟨hS, hF, hC⟩ := hinv
    have hrun := hC hcl
    rw [hrun] at hS hF
    refine ⟨by simpa using hF, ?_⟩
    have hlen : c.emitted.length = (successValues get urls).length := by
      have := (by simpa using hS : c.emitted.Perm (successValues get urls))
      exact this.length_eq
    have htot := success_failure_length get urls
    omega
  · intro drain cap inUse data h
    constructor <;> simp [serveHTTP, acquire, h]
  · intro drain cap inUse method body
    by_cases hm : method = "POST"
    · by_cases hlt : inUse < cap
      · cases body with
        | error u =>
          subst hm
          intro _
          constructor <;> simp [serveHTTP, acquire, hlt]
        | ok data =>
          subst hm
          intro hne
          exfalso
          apply hne
          simp [serveHTTP, acquire, hlt]
      · subst hm
        intro _
        cases body <;> constructor <;> simp [serveHTTP, acquire, hlt]
    · intro _
      constructor <;> simp [serveHTTP, hm]

theorem per_url_failures_absorbed_witness :
    (([['E']] : List Url).Perm (failureValues getAllErr [['a']]) ∧
      ([] : List Nat).length =
        ([['a']] : List Url).length - (failureValues getAllErr [['a']]).length) ∧
    (serveHTTP drainNil 1 0 "POST" (Except.ok ['x'])).1.status = 200 := by
  have h := per_url_failures_absorbed getAllErr [['a']]
  have hreach : Reachable getAllErr true (initConfig [['a']]) ⟨[], [], [['E']], true⟩ :=
    Relation.ReflTransGen.head (Step.fail [] [] ['a'] ['E'] rfl rfl)
      (Relation.ReflTransGen.single (Step.close rfl rfl))
  exact ⟨h.1 ⟨[], [], [['E']], true⟩ hreach rfl, (h.2.1 drainNil 1 0 ['x'] (by decide)).1⟩

theorem single_middle {α : Type} (l₁ l₂ : List α) (x y : α)
    (h : [y] = l₁ ++ x :: l₂) : l₁ = [] ∧ x = y ∧ l₂ = [] := by
  cases l₁ with
  | nil =>
    simp only [List.nil_append, List.cons.injEq] at h
    exact ⟨rfl, h.1.symm, h.2.symm⟩
  | cons a l₁ =>
    simp only [List.cons_append, List.cons.injEq] at h
    have := h.2
    exact absurd this.symm (by simp)

/-- C8 counterexample: `ch` is unbuffered, so with the caller no longer
draining and one fetch succeeding, the run reaches a state where the
task is blocked at its send forever: no step exists from it, the task
has not terminated, and the channel is never closed. -/
theorem abandoned_reader_blocks_task :
    Reachable getAllOk false (initConfig [['a']])
      ⟨[(['a'], Phase.sending 5)], [], [], false⟩ ∧
    (∀ c', ¬ Step getAllOk false ⟨[(['a'], Phase.sending 5)], [], [], false⟩ c') ∧
    ([(['a'], Phase.sending 5)] : List FetchTask) ≠ [] := by
  refine ⟨Relation.ReflTransGen.single (Step.succeed [] [] ['a'] 5 rfl rfl), ?_, by simp⟩
  intro c' h
  cases h with
  | fail l₁ l₂ u e hrun hget =>
    obtain ⟨-, h2, -⟩ := single_middle l₁ l₂ (u, Phase.fetching) (['a'], Phase.sending 5)
      (by simpa using hrun)
    have := congrArg Prod.snd h2
    simp at this
  | succeed l₁ l₂ u n hrun hget =>
    obtain ⟨-, h2, -⟩ := single_middle l₁ l₂ (u, Phase.fetching) (['a'], Phase.sending 5)
      (by simpa using hrun)
    have := congrArg Prod.snd h2
    simp at this
  | emit l₁ l₂ u n hr hrun => exact Bool.noConfusion hr
  | close hrun hcl => simp at hrun

/-- Live tasks of an all-failing batch: every running task's URL is
rejected by the capability and is still in its fetching phase, and
nothing has been emitted. -/
def AllFailCfg (get : GetFn) (c : Config) : Prop :=
  (∀ t ∈ c.running, (∃ e, get t.1 = Except.error e) ∧ t.2 = Phase.fetching) ∧
  c.emitted = []

theorem allFailCfg_step (get : GetFn) (c c' : Config)
    (h : Step get false c c') (hinv : AllFailCfg get c) : AllFailCfg get c' := by
  obtain ⟨hall, hem⟩ := hinv
  cases h with
  | fail l₁ l₂ u e hrun hget =>
    refine ⟨?_, hem⟩
    intro t ht
    apply hall
    rw [hrun]
    rcases List.mem_append.mp ht with h1 | h1
    · exact List.mem_append.mpr (Or.inl h1)
    · exact List.mem_append.mpr (Or.inr (List.mem_cons_of_mem _ h1))
  | succeed l₁ l₂ u n hrun hget =>
    exfalso
    have hu := hall (u, Phase.fetching) (by rw [hrun]; simp)
    obtain ⟨⟨e, he⟩, -⟩ := hu
    rw [hget] at he
    exact Except.noConfusion he
  | emit l₁ l₂ u n hr hrun => exact Bool.noConfusion hr
  | close hrun hcl => exact ⟨by intro t ht; simp at ht, hem⟩

theorem allFailCfg_reachable (get : GetFn) (c c' : Config)
    (h : Reachable get false c c') (hinv : AllFailCfg get c) : AllFailCfg get c' := by
  induction h with
  | refl => exact hinv
  | tail hab hbc ih => exact allFailCfg_step get _ _ hbc ih

/-- C8 amended: without a reader, completion still holds exactly for
tasks that fail: if every fetch of the batch fails, every interleaving
can keep stepping while open (each failing task logs and terminates,
then the close fires), and a closed state has no live task and nothing
emitted; but a task whose fetch succeeds blocks forever at its emit
step, holding the completion signal open (the counterexample above). -/
theorem abandoned_reader_all_fail (get : GetFn) (urls : List Url)
    (hfail : ∀ u ∈ urls, ∃ e, get u = Except.error e) :
    (∀ c, Reachable get false (initConfig urls) c → c.closed = false →
      ∃ c', Step get false c c') ∧
    (∀ c, Reachable get false (initConfig urls) c → c.closed = true →
      c.running = [] ∧ c.emitted = []) := by
  have hinit : AllFailCfg get (initConfig urls) := by
    constructor
    · intro t ht
      simp only [initConfig, List.mem_map] at ht
      obtain ⟨u, hu, rfl⟩ := ht
      exact ⟨hfail u hu, rfl⟩
    · rfl
  constructor
  · intro c hreach hcl
    have hinv := allFailCfg_reachable get _ _ hreach hinit
    cases hrun : c.running with
    | nil => exact ⟨_, Step.close hrun hcl⟩
    | cons t ts =>
      obtain ⟨u, ph⟩ := t
      have ht := hinv.1 (u, ph) (by rw [hrun]; simp)
      rcases ht with ⟨⟨e, he⟩, hph⟩
      cases ph with
      | fetching => exact ⟨_, Step.fail [] ts u e (by simpa using hrun) he⟩
      | sending n => simp at hph
  · intro c hreach hcl
    have hinv := allFailCfg_reachable get _ _ hreach hinit
    have h2 := engineInv_reachable get false urls _ _ hreach (engineInv_init get urls)
    exact ⟨h2.2.2 hcl, hinv.2⟩

theorem abandoned_reader_all_fail_witness :
    ∃ c', Step getAllErr false (initConfig [['a']]) c' :=
  (abandoned_reader_all_fail getAllErr [['a']] (fun _ _ => ⟨['E'], rfl⟩)).1
    (initConfig [['a']]) Relation.ReflTransGen.refl rfl

/-- C9: splitting any payload on newlines yields at least one segment,
so the engine is never invoked with an empty URL list; the zero-length
payload splits into exactly one empty URL, an admitted empty-body
request hands exactly that list to `fetch`, which launches one task for
the empty URL, and when the capability rejects the empty URL that task
logs the error and terminates; a payload ending in a newline yields a
final empty-URL segment. -/
theorem split_never_empty (data : List Char) :
    splitLines data ≠ [] ∧
    splitLines [] = [[]] ∧
    (splitLines (data ++ ['\n'])).getLast? = some [] ∧
    (∀ (drain : List Url → List Nat) (cap inUse : Nat), inUse < cap →
      (serveHTTP drain cap inUse "POST" (Except.ok [])).1.engineUrls = some [[]]) ∧
    (initConfig [[]]).running = [([], Phase.fetching)] ∧
    (∀ (g : GetFn) (e : Url), g [] = Except.error e →
      Step g true (initConfig [[]]) ⟨[], [], [e], false⟩) := by
  refine ⟨splitLines_ne_nil data, rfl, ?_, ?_, rfl, ?_⟩
  · rw [splitLines_append_newline]
    exact List.getLast?_concat _
  · intro drain cap inUse h
    simp [serveHTTP, acquire, h, splitLines]
  · intro g e hget
    exact Step.fail [] [] [] e rfl hget

theorem split_never_empty_witness :
    splitLines ['a'] ≠ [] ∧
    (serveHTTP drainNil 1 0 "POST" (Except.ok [])).1.engineUrls = some [[]] ∧
    Step getAllErr true (initConfig [[]]) ⟨[], [], [['E']], false⟩ := by
  have h := split_never_empty ['a']
  exact ⟨h.1, h.2.2.2.1 drainNil 1 0 (by decide), h.2.2.2.2.2 getAllErr ['E'] rfl⟩

/-- C3 counterexample: `ServeHTTP` attempts admission before reading the
payload: with the gate saturated (capacity 1, one slot in use) and an
unreadable body, the response is 503 — the admission rejection — and not
the 400 that a before-admission payload check would give. -/
theorem unreadable_payload_after_admission :
    (serveHTTP drainNil 1 1 "POST" (Except.error ())).1.status = 503 ∧
    (serveHTTP drainNil 1 1 "POST" (Except.error ())).1.status ≠ 400 := by
  constructor <;> decide

/-- C3 amended: an unreadable payload is rejected with the client-error
outcome 400 only after a successful gate acquire (whose slot the
deferred release returns, leaving the in-use count as before); when the
gate is full the admission rejection 503 preempts the payload error; and
in both cases the batch never reaches the fetch engine. -/
theorem unreadable_payload_rejected (drain : List Url → List Nat)
    (cap inUse : Nat) (h : inUse < cap) :
    serveHTTP drain cap inUse "POST" (Except.error ()) =
      (⟨400, [], 1, 1, none⟩, inUse) ∧
    (∀ cap' inUse', cap' ≤ inUse' →
      (serveHTTP drain cap' inUse' "POST" (Except.error ())).1.status = 503 ∧
      (serveHTTP drain cap' inUse' "POST" (Except.error ())).1.engineUrls = none) := by
  constructor
  · simp [serveHTTP, acquire, h]
  · intro cap' inUse' h'
    have hn : ¬ inUse' < cap' := by omega
    constructor <;> simp [serveHTTP, acquire, hn]

theorem unreadable_payload_rejected_witness :
    serveHTTP drainNil 1 0 "POST" (Except.error ()) = (⟨400, [], 1, 1, none⟩, 0) ∧
    (serveHTTP drainNil 1 1 "POST" (Except.error ())).1.status = 503 := by
  have h := unreadable_payload_rejected drainNil 1 0 (by decide)
  exact ⟨h.1, (h.2 1 1 (by decide)).1⟩

/-- C6: on every `ServeHTTP` path the deferred release fires exactly
once per successful acquire: released always equals acquired, a path
that acquired returns with the in-use count it started from, and the
paths that never acquire — non-POST and full gate — release nothing. -/
theorem release_per_acquire (drain : List Url → List Nat) (cap inUse : Nat)
    (method : String) (body : Except Unit (List Char)) :
    ((serveHTTP drain cap inUse method body).1.releases =
      (serveHTTP drain cap inUse method body).1.acquires) ∧
    ((serveHTTP drain cap inUse method body).1.acquires = 1 →
      (serveHTTP drain cap inUse method body).2 = inUse) ∧
    (method ≠ "POST" → (serveHTTP drain cap inUse method body).1.acquires = 0) ∧
    (cap ≤ inUse → (serveHTTP drain cap inUse method body).1.acquires = 0) ∧
    (method = "POST" → inUse < cap →
      (serveHTTP drain cap inUse method body).1.acquires = 1) := by
  by_cases hm : method = "POST"
  · subst hm
    by_cases hlt : inUse < cap
    · cases body <;> refine ⟨?_, ?_, ?_, ?_, ?_⟩ <;>
        simp [serveHTTP, acquire, hlt]
    · cases body <;> refine ⟨?_, ?_, ?_, ?_, ?_⟩ <;>
        simp [serveHTTP, acquire, hlt]
  · refine ⟨?_, ?_, ?_, ?_, ?_⟩ <;> simp [serveHTTP, hm]

theorem release_per_acquire_witness :
    ((serveHTTP drainNil 1 0 "POST" (Except.ok ['x'])).1.releases =
      (serveHTTP drainNil 1 0 "POST" (Except.ok ['x'])).1.acquires) ∧
    (serveHTTP drainNil 1 0 "POST" (Except.ok ['x'])).2 = 0 := by
  have h := release_per_acquire drainNil 1 0 "POST" (Except.ok ['x'])
  exact ⟨h.1, h.2.1 (by decide)⟩

end HttpHandler
